import Mathlib

/-!
Verification of the cell-segmentation algorithm of `md-to-ipynb.js`
(`splitIntoNotebookCells`).  The JavaScript function is embedded shallowly:
JS strings become `List Char` (splitting on `'\n'` is per-code-unit, which
for the ASCII separator coincides with per-character), `String.split('\n')`
becomes `splitCh '\n'`, `String.trim` becomes `jsTrim` (restricted to the
ASCII whitespace characters, the only ones relevant here), and the
imperative loop over lines becomes a `List.foldl` of a `step` function over
an explicit scanner state.
-/

/-- JS `trim`-style whitespace test (ASCII part: space, tab, LF, CR, VT, FF). -/
def wsChar (c : Char) : Bool :=
  c = ' ' || c = '\t' || c = '\n' || c = '\r' || c = '\x0b' || c = '\x0c'

/-- Embedding of JS `String.prototype.trim`: drop whitespace from both ends. -/
def jsTrim (l : List Char) : List Char :=
  ((l.dropWhile wsChar).reverse.dropWhile wsChar).reverse

/-- Embedding of JS `String.prototype.split` with a single-character
separator: `splitCh sep s` returns the (always nonempty) list of parts,
including empty parts, exactly as JS does (`"".split('\n') = [""]`,
`"a\n".split('\n') = ["a", ""]`). -/
def splitCh (sep : Char) : List Char → List (List Char)
  | [] => [[]]
  | c :: cs =>
    if c = sep then [] :: splitCh sep cs
    else
      match splitCh sep cs with
      | [] => [[c]]
      | p :: ps => (c :: p) :: ps

/-- Embedding of `line.startsWith('```')` of the source (line 41 of
`md-to-ipynb.js`): the first three characters are backticks. -/
def startsTicks (l : List Char) : Bool :=
  match l with
  | a :: b :: c :: _ => a = '\x60' && b = '\x60' && c = '\x60'
  | _ => false

/-- Embedding of `line.startsWith('#')` of the source (line 92 of
`md-to-ipynb.js`). -/
def startsHash (l : List Char) : Bool :=
  match l with
  | c :: _ => c = '#'
  | _ => false

/-- Embedding of `currentCell.split('\n').map(line => line + '\n')`, the
content array built from the accumulated buffer at every flush. -/
def asLines (cc : List Char) : List (List Char) :=
  (splitCh '\n' cc).map (fun l => l ++ ['\n'])

/-- A notebook cell as produced by `splitIntoNotebookCells`: either a
markdown (prose) cell or a code cell; the JS objects' constant metadata
fields (`execution_count`, `outputs`, `metadata`) carry no information and
are omitted.  `source` is the array of content lines. -/
inductive Cell where
  | markdown (source : List (List Char)) : Cell
  | code (source : List (List Char)) : Cell
deriving DecidableEq, Repr

/-- The content-line array of a cell (`source` field of the JS object). -/
def Cell.source : Cell → List (List Char)
  | .markdown s => s
  | .code s => s

/-- Whether a cell has `cell_type: 'code'`. -/
def Cell.isCode : Cell → Bool
  | .markdown _ => false
  | .code _ => true

/-- The mutable state of the JS loop: the cells pushed so far, the
accumulated buffer `currentCell`, the `inCodeBlock` flag and the recorded
`codeBlockLang`. -/
structure ScanState where
  cells : List Cell
  currentCell : List Char
  inCodeBlock : Bool
  codeBlockLang : List Char
deriving DecidableEq, Repr

/-- The initial loop state: no cells, empty buffer, outside any fence,
empty language tag. -/
def initState : ScanState :=
  { cells := [], currentCell := [], inCodeBlock := false, codeBlockLang := [] }

/-- Lines 44–52 / 94–101 / 113–119 of the source: push the buffer as a
markdown cell if its trimmed content is nonempty (JS truthiness of
`currentCell.trim()`), clearing the buffer; otherwise leave the state
unchanged (in particular the buffer is NOT cleared when blank). -/
def flushMd (st : ScanState) : ScanState :=
  if (jsTrim st.currentCell).isEmpty then st
  else { st with cells := st.cells ++ [Cell.markdown (asLines st.currentCell)],
                 currentCell := [] }

/-- Lines 64–84 of the source: the cell pushed when a fence closes.  If the
recorded tag is exactly `python` it is a code cell holding the split buffer;
otherwise a markdown cell that re-wraps the split buffer between a
reconstructed opening fence line and a closing fence line. -/
def closeCell (st : ScanState) : Cell :=
  if st.codeBlockLang = "python".data then Cell.code (asLines st.currentCell)
  else Cell.markdown
    (("```".data ++ st.codeBlockLang ++ ['\n']) :: asLines st.currentCell ++ ["```\n".data])

/-- One iteration of the JS `for` loop (lines 37–110 of the source), on a
single line.  Branch order follows the source: fence markers first, then
headers (only outside a fence), then the default append. -/
def step (st : ScanState) (line : List Char) : ScanState :=
  if startsTicks line then
    if st.inCodeBlock then
      { st with inCodeBlock := false,
                cells := st.cells ++ [closeCell st],
                currentCell := [] }
    else
      let st1 := flushMd st
      { st1 with codeBlockLang := jsTrim (line.drop 3), inCodeBlock := true }
  else if !st.inCodeBlock && startsHash line then
    let st1 := flushMd st
    { st1 with currentCell := line ++ ['\n'] }
  else
    { st with currentCell := st.currentCell ++ line ++ ['\n'] }

/-- The state after the whole loop: fold `step` over `markdown.split('\n')`. -/
def scanAll (md : String) : ScanState :=
  (splitCh '\n' md.data).foldl step initState

/-- Lines 112–119 of the source: the final flush of a nonblank buffer. -/
def finish (st : ScanState) : List Cell :=
  (flushMd st).cells

/-- The segmentation function `splitIntoNotebookCells` of `md-to-ipynb.js`:
split the document on newlines, run the loop, flush the remainder. -/
def splitIntoNotebookCells (md : String) : List Cell :=
  finish (scanAll md)

/-- All intermediate loop states (before each iteration and after the last),
used to speak about the buffer "at flush time". -/
def scanStates (md : String) : List ScanState :=
  (splitCh '\n' md.data).scanl step initState

/-- Concatenation of raw lines, each followed by a newline: the shape the
buffer `currentCell` always has (it only ever grows by `line ++ ['\n']`). -/
def joinLines (raws : List (List Char)) : List Char :=
  (raws.map (fun l => l ++ ['\n'])).flatten

/-- The concatenated content-line arrays of a cell sequence, in order. -/
def flatContent (cells : List Cell) : List (List Char) :=
  (cells.map Cell.source).flatten

/-- Every line of the source document, with its `'\n'` terminator restored
(the source lines of `markdown.split('\n')`, each mapped to `line + '\n'`). -/
def srcLines (md : String) : List (List Char) :=
  (splitCh '\n' md.data).map (fun l => l ++ ['\n'])

/-- A "good" line: neither blank (whitespace-only) nor a fence-delimiter
line; the lines whose preservation the segmenter guarantees. -/
def goodLine (l : List Char) : Bool :=
  !(jsTrim l).isEmpty && !startsTicks l

/- Basic lemmas about the string helpers. -/

theorem splitCh_ne_nil (sep : Char) (l : List Char) : splitCh sep l ≠ [] := by
  cases l with
  | nil => simp [splitCh]
  | cons c cs =>
    simp only [splitCh]
    split
    · simp
    · split <;> simp

theorem splitCh_not_mem (sep : Char) (l : List Char) :
    ∀ p ∈ splitCh sep l, sep ∉ p := by
  induction l with
  | nil => intro p hp; simp [splitCh] at hp; simp [hp]
  | cons c cs ih =>
    intro p hp
    by_cases hc : c = sep
    · rw [splitCh, if_pos hc] at hp
      rcases List.mem_cons.mp hp with h | h
      · simp [h]
      · exact ih p h
    · rcases hsp : splitCh sep cs with _ | ⟨q, qs⟩
      · exact absurd hsp (splitCh_ne_nil sep cs)
      · rw [splitCh, if_neg hc, hsp] at hp
        have hp' : p ∈ (c :: q) :: qs := hp
        rcases List.mem_cons.mp hp' with h1 | h1
        · subst h1
          intro hmem
          rcases List.mem_cons.mp hmem with h2 | h2
          · exact hc h2.symm
          · exact ih q (by rw [hsp]; exact List.mem_cons_self q qs) h2
        · exact ih p (by rw [hsp]; exact List.mem_cons_of_mem q h1)

theorem splitCh_append_sep (sep : Char) (a b : List Char) (ha : sep ∉ a) :
    splitCh sep (a ++ sep :: b) = a :: splitCh sep b := by
  induction a with
  | nil => simp [splitCh]
  | cons x xs ih =>
    have hx : x ≠ sep := fun h => ha (h ▸ List.mem_cons_self x xs)
    have hxs : sep ∉ xs := fun h => ha (List.mem_cons_of_mem x h)
    rw [List.cons_append, splitCh, if_neg hx, ih hxs]

theorem splitCh_joinLines (raws : List (List Char))
    (h : ∀ l ∈ raws, ('\n' : Char) ∉ l) :
    splitCh '\n' (joinLines raws) = raws ++ [[]] := by
  induction raws with
  | nil => simp [joinLines, splitCh]
  | cons r rs ih =>
    have hr : ('\n' : Char) ∉ r := h r (List.mem_cons_self r rs)
    have hrs : ∀ l ∈ rs, ('\n' : Char) ∉ l := fun l hl => h l (List.mem_cons_of_mem r hl)
    have : joinLines (r :: rs) = r ++ '\n' :: joinLines rs := by
      simp [joinLines]
    rw [this, splitCh_append_sep _ _ _ hr, ih hrs]
    simp

theorem asLines_joinLines (raws : List (List Char))
    (h : ∀ l ∈ raws, ('\n' : Char) ∉ l) :
    asLines (joinLines raws) = raws.map (fun l => l ++ ['\n']) ++ [['\n']] := by
  simp [asLines, splitCh_joinLines raws h]

theorem jsTrim_eq_nil_iff (l : List Char) :
    jsTrim l = [] ↔ ∀ c ∈ l, wsChar c = true := by
  unfold jsTrim
  rw [List.reverse_eq_nil_iff, List.dropWhile_eq_nil_iff]
  constructor
  · intro h c hc
    by_cases hws : wsChar c = true
    · exact hws
    · exfalso
      have hcd : c ∈ l.dropWhile wsChar := by
        have : List.takeWhile wsChar l ++ List.dropWhile wsChar l = l :=
          List.takeWhile_append_dropWhile wsChar l
        rcases List.mem_append.mp (this ▸ hc) with h1 | h1
        · exact absurd (List.mem_takeWhile_imp h1) hws
        · exact h1
      exact hws (h c (List.mem_reverse.mpr hcd))
  · intro h c hc
    exact h c (List.dropWhile_sublist wsChar |>.subset (List.mem_reverse.mp hc))

theorem jsTrim_ne_nil_iff (l : List Char) :
    jsTrim l ≠ [] ↔ ∃ c ∈ l, wsChar c = false := by
  rw [Ne, jsTrim_eq_nil_iff]
  push_neg
  constructor
  · rintro ⟨c, hc, hw⟩; exact ⟨c, hc, by simpa using hw⟩
  · rintro ⟨c, hc, hw⟩; exact ⟨c, hc, by simp [hw]⟩

theorem mem_splitCh (sep c : Char) (l : List Char) (hc : c ∈ l) (hne : c ≠ sep) :
    ∃ p ∈ splitCh sep l, c ∈ p := by
  induction l with
  | nil => simp at hc
  | cons x xs ih =>
    by_cases hx : x = sep
    · have hcs : c ∈ xs := by
        rcases List.mem_cons.mp hc with h | h
        · exact absurd (h.trans hx) hne
        · exact h
      obtain ⟨p, hp, hcp⟩ := ih hcs
      exact ⟨p, by simp only [splitCh, hx, if_pos rfl]; exact List.mem_cons_of_mem _ hp, hcp⟩
    · rcases h : splitCh sep xs with _ | ⟨q, qs⟩
      · exact absurd h (splitCh_ne_nil sep xs)
      · rcases List.mem_cons.mp hc with h1 | h1
        · refine ⟨x :: q, ?_, by simp [h1]⟩
          simp only [splitCh, if_neg hx, h]
          exact List.mem_cons_self _ _
        · obtain ⟨p, hp, hcp⟩ := ih h1
          rw [h] at hp
          rcases List.mem_cons.mp hp with h2 | h2
          · refine ⟨x :: q, ?_, by subst h2; exact List.mem_cons_of_mem x hcp⟩
            simp only [splitCh, if_neg hx, h]
            exact List.mem_cons_self _ _
          · refine ⟨p, ?_, hcp⟩
            simp only [splitCh, if_neg hx, h]
            exact List.mem_cons_of_mem _ h2

theorem startsTicks_concat_nl (l : List Char) :
    startsTicks (l ++ ['\n']) = startsTicks l := by
  rcases l with _ | ⟨a, _ | ⟨b, _ | ⟨c, t⟩⟩⟩ <;> simp [startsTicks]

theorem startsTicks_ws (c : Char) (r : List Char) (h : wsChar c = true) :
    startsTicks (c :: r) = false := by
  have hc : c ≠ '\x60' := by
    intro he; subst he; simp [wsChar] at h
  rcases r with _ | ⟨b, _ | ⟨d, t⟩⟩ <;> simp [startsTicks, hc]

theorem startsHash_ne_empty (l : List Char) (h : startsHash l = true) : l ≠ [] := by
  intro he; subst he; simp [startsHash] at h

theorem startsHash_ws (c : Char) (r : List Char) (h : wsChar c = true) :
    startsHash (c :: r) = false := by
  have hc : c ≠ '#' := by
    intro he; subst he; simp [wsChar] at h
  simp [startsHash, hc]

theorem startsTicks_of_hash (l : List Char) (h : startsHash l = true) :
    startsTicks l = false := by
  rcases l with _ | ⟨a, r⟩
  · simp [startsHash] at h
  · have ha : a = '#' := by simpa [startsHash] using h
    subst ha
    rcases r with _ | ⟨b, _ | ⟨d, t⟩⟩ <;> simp [startsTicks]

/- Characterizations of a single loop iteration, one per branch of the
source's `for` body. -/

theorem flushMd_blank_eq (st : ScanState)
    (hb : (jsTrim st.currentCell).isEmpty = true) : flushMd st = st := by
  simp [flushMd, hb]

theorem flushMd_nonblank_eq (st : ScanState)
    (hb : (jsTrim st.currentCell).isEmpty = false) :
    flushMd st = { st with cells := st.cells ++ [Cell.markdown (asLines st.currentCell)],
                           currentCell := [] } := by
  simp [flushMd, hb]

theorem step_append_eq (st : ScanState) (line : List Char)
    (ht : startsTicks line = false)
    (hh : (!st.inCodeBlock && startsHash line) = false) :
    step st line = { st with currentCell := st.currentCell ++ line ++ ['\n'] } := by
  simp [step, ht, hh]

theorem step_close_eq (st : ScanState) (line : List Char)
    (hin : st.inCodeBlock = true) (ht : startsTicks line = true) :
    step st line = { st with inCodeBlock := false,
                             cells := st.cells ++ [closeCell st],
                             currentCell := [] } := by
  simp [step, ht, hin]

theorem step_open_eq (st : ScanState) (line : List Char)
    (hout : st.inCodeBlock = false) (ht : startsTicks line = true) :
    step st line = { flushMd st with codeBlockLang := jsTrim (line.drop 3),
                                     inCodeBlock := true } := by
  simp [step, ht, hout]

theorem step_infence_eq (st : ScanState) (line : List Char)
    (hin : st.inCodeBlock = true) (ht : startsTicks line = false) :
    step st line = { st with currentCell := st.currentCell ++ line ++ ['\n'] } := by
  simp [step, ht, hin]

theorem step_plain_eq (st : ScanState) (line : List Char)
    (ht : startsTicks line = false) (hh : startsHash line = false) :
    step st line = { st with currentCell := st.currentCell ++ line ++ ['\n'] } := by
  simp [step, ht, hh]

/-- The header branch (lines 92–106 of the source): flush a nonblank buffer
as a markdown cell, then restart the buffer with the header line. -/
theorem step_header_flush_seed (st : ScanState) (line : List Char)
    (hout : st.inCodeBlock = false) (hh : startsHash line = true) :
    (step st line).currentCell = line ++ ['\n']
    ∧ (step st line).cells = st.cells ++
        (if (jsTrim st.currentCell).isEmpty then []
         else [Cell.markdown (asLines st.currentCell)])
    ∧ (step st line).inCodeBlock = false := by
  have ht := startsTicks_of_hash line hh
  by_cases hb : (jsTrim st.currentCell).isEmpty
  · simp [step, ht, hout, hh, flushMd, hb]
  · simp [step, ht, hout, hh, flushMd, hb]

/-- Body lines of an open fence (no fence marker) leave the mode, the
recorded language and the emitted cells unchanged. -/
theorem foldl_infence (body : List (List Char)) : ∀ st : ScanState,
    st.inCodeBlock = true → (∀ l ∈ body, startsTicks l = false) →
    (List.foldl step st body).inCodeBlock = true
    ∧ (List.foldl step st body).codeBlockLang = st.codeBlockLang
    ∧ (List.foldl step st body).cells = st.cells := by
  induction body with
  | nil => intro st hin _; exact ⟨hin, rfl, rfl⟩
  | cons l ls ih =>
    intro st hin hb
    have hl : startsTicks l = false := hb l (List.mem_cons_self l ls)
    rw [List.foldl_cons, step_infence_eq st l hin hl]
    exact ih _ hin (fun x hx => hb x (List.mem_cons_of_mem _ hx))

/-- The cell pushed when a fence closes is a code cell precisely when the
recorded language is the string `python`. -/
theorem closeCell_isCode (st : ScanState) :
    (closeCell st).isCode = true ↔ st.codeBlockLang = "python".data := by
  by_cases hl : st.codeBlockLang = "python".data <;>
    simp [closeCell, hl, Cell.isCode]

/-- C1.  The spec's Example 2 claims input `"Intro\n```python\nprint(1)\n```\nEnd\n"`
produces exactly Prose(`["Intro\n"]`), Code(`["print(1)\n"]`), Prose(`["End\n"]`).
It does not: because the buffer ends with `'\n'` at every flush,
`split('\n')` leaves a trailing empty string and each cell carries extra
`"\n"` content elements. -/
theorem c1_counterexample :
    splitIntoNotebookCells "Intro\n```python\nprint(1)\n```\nEnd\n" ≠
      [Cell.markdown ["Intro\n".data],
       Cell.code ["print(1)\n".data],
       Cell.markdown ["End\n".data]] := by
  decide

/-- C1 (amended).  The input produces three cells in the claimed order and
of the claimed kinds, but with the split-artifact trailing `"\n"` elements:
Prose `["Intro\n","\n"]`, Code `["print(1)\n","\n"]`, Prose
`["End\n","\n","\n"]`. -/
theorem c1_amended :
    splitIntoNotebookCells "Intro\n```python\nprint(1)\n```\nEnd\n" =
      [Cell.markdown ["Intro\n".data, "\n".data],
       Cell.code ["print(1)\n".data, "\n".data],
       Cell.markdown ["End\n".data, "\n".data, "\n".data]] := by
  decide

/-- C2.  A fenced block is emitted as a Code cell iff the tag recorded from
its opening fence line — the text after the three backticks, trimmed — is
exactly the string `python` (case-sensitive, `===` in the source); every
other tag yields a markdown cell.  Stated over an arbitrary outside-mode
state, an arbitrary opening fence line `lo`, arbitrary body lines and an
arbitrary closing fence line `lc`. -/
theorem c2_language_gating (st : ScanState) (lo : List Char)
    (body : List (List Char)) (lc : List Char)
    (hout : st.inCodeBlock = false) (hlo : startsTicks lo = true)
    (hbody : ∀ l ∈ body, startsTicks l = false) (hlc : startsTicks lc = true) :
    ∃ c : Cell,
      (step (List.foldl step (step st lo) body) lc).cells
        = (List.foldl step (step st lo) body).cells ++ [c]
      ∧ (c.isCode = true ↔ jsTrim (lo.drop 3) = "python".data) := by
  have hopen : step st lo
      = { flushMd st with codeBlockLang := jsTrim (lo.drop 3), inCodeBlock := true } :=
    step_open_eq st lo hout hlo
  have h1 := foldl_infence body (step st lo) (by rw [hopen]) hbody
  refine ⟨closeCell (List.foldl step (step st lo) body), ?_, ?_⟩
  · rw [step_close_eq _ lc h1.1 hlc]
  · rw [closeCell_isCode, h1.2.1, hopen]

/-- C2 witness: the block `"```python" / "print(1)" / "```"` from the
initial state emits one cell, code iff the recorded tag is `python`. -/
theorem c2_language_gating_witness :
    ∃ c : Cell,
      (step (List.foldl step (step initState "```python".data) ["print(1)".data]) "```".data).cells
        = (List.foldl step (step initState "```python".data) ["print(1)".data]).cells ++ [c]
      ∧ (c.isCode = true ↔ jsTrim ("```python".data.drop 3) = "python".data) :=
  c2_language_gating initState "```python".data ["print(1)".data] "```".data
    rfl (by decide) (by decide) (by decide)

/-- C5.  The spec's Example 3 claims `"```bash\necho hi\n```\n"` yields one
Prose cell `["```bash\n","echo hi\n","```\n"]`.  It does not: the split of
the newline-terminated buffer inserts an extra `"\n"` element before the
closing fence line. -/
theorem c5_counterexample :
    splitIntoNotebookCells "```bash\necho hi\n```\n" ≠
      [Cell.markdown ["```bash\n".data, "echo hi\n".data, "```\n".data]] := by
  decide

/-- C5 (amended).  A non-python fence is demoted to a markdown cell whose
content is the reconstructed opening fence line, then the accumulated
buffer split on newlines with each piece re-terminated (which appends one
extra `"\n"` element after the body), then the closing fence line; on the
example input this is `["```bash\n","echo hi\n","\n","```\n"]`. -/
theorem c5_amended :
    (∀ (st : ScanState) (line : List Char),
      st.inCodeBlock = true → startsTicks line = true →
      st.codeBlockLang ≠ "python".data →
      (step st line).cells = st.cells ++
        [Cell.markdown (("```".data ++ st.codeBlockLang ++ ['\n']) ::
          asLines st.currentCell ++ ["```\n".data])])
    ∧ splitIntoNotebookCells "```bash\necho hi\n```\n" =
        [Cell.markdown ["```bash\n".data, "echo hi\n".data, "\n".data, "```\n".data]] := by
  constructor
  · intro st line hin ht hlang
    rw [step_close_eq st line hin ht]
    simp [closeCell, hlang]
  · decide

/-- C5 witness: the general part of the amended statement applied to the
state of the example just before its closing fence. -/
theorem c5_amended_witness :
    (step { cells := [], currentCell := "echo hi\n".data,
            inCodeBlock := true, codeBlockLang := "bash".data } "```".data).cells
      = [] ++ [Cell.markdown (("```".data ++ "bash".data ++ ['\n']) ::
          asLines "echo hi\n".data ++ ["```\n".data])] :=
  c5_amended.1
    { cells := [], currentCell := "echo hi\n".data,
      inCodeBlock := true, codeBlockLang := "bash".data }
    "```".data rfl (by decide) (by decide)

/-- C6.  Outside a fence, a header line first flushes a nonblank pending
buffer as a markdown cell (a blank pending buffer produces no cell), and
the header line becomes the first — and only — line of the new pending
buffer; the flushed cell is built solely from the old buffer, so the header
is never merged into the preceding cell, and it is retained as the seed of
the next one, never discarded. -/
theorem c6_header_seeding (st : ScanState) (line : List Char)
    (hout : st.inCodeBlock = false) (hh : startsHash line = true) :
    (step st line).currentCell = line ++ ['\n']
    ∧ (step st line).cells = st.cells ++
        (if (jsTrim st.currentCell).isEmpty then []
         else [Cell.markdown (asLines st.currentCell)]) :=
  ⟨(step_header_flush_seed st line hout hh).1,
   (step_header_flush_seed st line hout hh).2.1⟩

/-- C6 witness: a header after pending prose `"Hello\n"` flushes the prose
cell and seeds the new buffer with the header line. -/
theorem c6_header_seeding_witness :
    (step { cells := [], currentCell := "Hello\n".data,
            inCodeBlock := false, codeBlockLang := [] } "# A".data).currentCell
      = "# A".data ++ ['\n']
    ∧ (step { cells := [], currentCell := "Hello\n".data,
              inCodeBlock := false, codeBlockLang := [] } "# A".data).cells
      = ([] : List Cell) ++
        (if (jsTrim "Hello\n".data).isEmpty then []
         else [Cell.markdown (asLines "Hello\n".data)]) :=
  c6_header_seeding
    { cells := [], currentCell := "Hello\n".data,
      inCodeBlock := false, codeBlockLang := [] }
    "# A".data rfl (by decide)

/-- C9.  A fence marker is only recognized when the backticks are the very
first characters of the line: a line with any non-empty run of whitespace
characters (`c :: ws`) before the backticks is not a fence delimiter and is
simply appended to the buffer, leaving mode, cells and recorded language
unchanged. -/
theorem c9_indented_fence_ignored (st : ScanState) (c : Char) (ws rest : List Char)
    (hws : wsChar c = true) (hws2 : ∀ x ∈ ws, wsChar x = true) :
    startsTicks (c :: (ws ++ ("```".data ++ rest))) = false
    ∧ step st (c :: (ws ++ ("```".data ++ rest))) =
        { st with
          currentCell := st.currentCell ++ (c :: (ws ++ ("```".data ++ rest))) ++ ['\n'] } := by
  have ht : startsTicks (c :: (ws ++ ("```".data ++ rest))) = false :=
    startsTicks_ws c _ hws
  have hh : startsHash (c :: (ws ++ ("```".data ++ rest))) = false :=
    startsHash_ws c _ hws
  exact ⟨ht, step_plain_eq st _ ht hh⟩

/-- C9 witness: the indented fence line `"  ```python"` (two leading
spaces) in the initial state is treated as ordinary content. -/
theorem c9_indented_fence_ignored_witness :
    startsTicks (' ' :: ([' '] ++ ("```".data ++ "python".data))) = false
    ∧ step initState (' ' :: ([' '] ++ ("```".data ++ "python".data))) =
        { initState with
          currentCell := initState.currentCell
            ++ (' ' :: ([' '] ++ ("```".data ++ "python".data))) ++ ['\n'] } :=
  c9_indented_fence_ignored initState ' ' [' '] "python".data (by decide) (by decide)

/-- C10.  Outside a fence, any line whose first character is `#` is a
header boundary, no matter what follows the `#` — no space or header text
is required: it flushes a nonblank pending buffer and seeds the next
buffer with the line itself. -/
theorem c10_any_hash_line (st : ScanState) (rest : List Char)
    (hout : st.inCodeBlock = false) :
    (step st ('#' :: rest)).currentCell = ('#' :: rest) ++ ['\n']
    ∧ (step st ('#' :: rest)).cells = st.cells ++
        (if (jsTrim st.currentCell).isEmpty then []
         else [Cell.markdown (asLines st.currentCell)]) := by
  have hh : startsHash ('#' :: rest) = true := by simp [startsHash]
  exact ⟨(step_header_flush_seed st _ hout hh).1,
         (step_header_flush_seed st _ hout hh).2.1⟩

/-- C10 witness: the shebang-like line `"#!/usr/bin/env"` after pending
prose flushes the pending cell and starts a new one. -/
theorem c10_any_hash_line_witness :
    (step { cells := [], currentCell := "x\n".data,
            inCodeBlock := false, codeBlockLang := [] } ('#' :: "!/usr/bin/env".data)).currentCell
      = ('#' :: "!/usr/bin/env".data) ++ ['\n']
    ∧ (step { cells := [], currentCell := "x\n".data,
              inCodeBlock := false, codeBlockLang := [] } ('#' :: "!/usr/bin/env".data)).cells
      = ([] : List Cell) ++
        (if (jsTrim "x\n".data).isEmpty then []
         else [Cell.markdown (asLines "x\n".data)]) :=
  c10_any_hash_line
    { cells := [], currentCell := "x\n".data,
      inCodeBlock := false, codeBlockLang := [] }
    "!/usr/bin/env".data rfl

/- Blank-content lemmas (for C3). -/

theorem nonblank_exists_line (cc : List Char)
    (h : (jsTrim cc).isEmpty = false) :
    ∃ l ∈ asLines cc, (jsTrim l).isEmpty = false := by
  have hne : jsTrim cc ≠ [] := by
    intro he; rw [he] at h; simp at h
  obtain ⟨c, hc, hcw⟩ := (jsTrim_ne_nil_iff cc).mp hne
  have hcnl : c ≠ '\n' := by
    intro he; subst he; simp [wsChar] at hcw
  obtain ⟨p, hp, hcp⟩ := mem_splitCh '\n' c cc hc hcnl
  refine ⟨p ++ ['\n'], List.mem_map_of_mem _ hp, ?_⟩
  have : jsTrim (p ++ ['\n']) ≠ [] :=
    (jsTrim_ne_nil_iff _).mpr ⟨c, List.mem_append_left _ hcp, hcw⟩
  simpa [List.isEmpty_iff] using this

theorem fence_line_nonblank (lang : List Char) :
    (jsTrim ("```".data ++ lang ++ ['\n'])).isEmpty = false := by
  have : jsTrim ("```".data ++ lang ++ ['\n']) ≠ [] := by
    refine (jsTrim_ne_nil_iff _).mpr ⟨'\x60', ?_, by decide⟩
    exact List.mem_append_left _ (List.mem_append_left _ (by decide))
  simpa [List.isEmpty_iff] using this

/-- Invariant: every markdown cell pushed so far has some non-blank
content line. -/
def ProseNonblank (st : ScanState) : Prop :=
  ∀ cell ∈ st.cells, cell.isCode = false →
    ∃ l ∈ cell.source, (jsTrim l).isEmpty = false

theorem flushMd_proseNonblank (st : ScanState) (h : ProseNonblank st) :
    ProseNonblank (flushMd st) := by
  unfold flushMd
  by_cases hb : (jsTrim st.currentCell).isEmpty
  · simpa [hb] using h
  · simp only [hb, if_false, Bool.false_eq_true]
    intro cell hcell hcode
    rcases List.mem_append.mp hcell with hm | hm
    · exact h cell hm hcode
    · have : cell = Cell.markdown (asLines st.currentCell) := by simpa using hm
      subst this
      simpa [Cell.source] using nonblank_exists_line st.currentCell (by simpa using hb)

theorem step_proseNonblank (st : ScanState) (line : List Char)
    (h : ProseNonblank st) : ProseNonblank (step st line) := by
  unfold step
  by_cases ht : startsTicks line
  · by_cases hin : st.inCodeBlock
    · simp only [ht, if_true, hin]
      intro cell hcell hcode
      rcases List.mem_append.mp hcell with hm | hm
      · exact h cell hm hcode
      · have hc : cell = closeCell st := by simpa using hm
        subst hc
        unfold closeCell at hcode ⊢
        by_cases hl : st.codeBlockLang = "python".data
        · simp [hl, Cell.isCode] at hcode
        · simp only [hl, if_neg hl]
          exact ⟨"```".data ++ st.codeBlockLang ++ ['\n'], by simp [Cell.source],
                 fence_line_nonblank st.codeBlockLang⟩
    · simp only [ht, if_true, hin]
      exact fun cell hcell hcode => flushMd_proseNonblank st h cell hcell hcode
  · by_cases hh : !st.inCodeBlock && startsHash line
    · simp only [ht, if_false, hh, if_true, Bool.false_eq_true]
      exact fun cell hcell hcode => flushMd_proseNonblank st h cell hcell hcode
    · simp only [ht, hh, if_false, Bool.false_eq_true]
      exact h

theorem foldl_proseNonblank (lines : List (List Char)) : ∀ st : ScanState,
    ProseNonblank st → ProseNonblank (List.foldl step st lines) := by
  induction lines with
  | nil => exact fun st h => h
  | cons l ls ih =>
    intro st h
    rw [List.foldl_cons]
    exact ih _ (step_proseNonblank st l h)

/-- C3 (amended).  No emitted markdown (Prose) cell has entirely-whitespace
content: every markdown cell in the output has at least one line with a
non-whitespace character.  (The claim's assertion about Code cells is
false — see the counterexample — because the fence-close branch pushes the
buffer without the trim check.) -/
theorem c3_amended (md : String) :
    ∀ cell ∈ splitIntoNotebookCells md, cell.isCode = false →
      ∃ l ∈ cell.source, (jsTrim l).isEmpty = false := by
  have h : ProseNonblank (scanAll md) := by
    unfold scanAll
    exact foldl_proseNonblank _ initState (by intro cell hcell; simp [initState] at hcell)
  unfold splitIntoNotebookCells finish
  exact fun cell hcell hcode => flushMd_proseNonblank _ h cell hcell hcode

/-- C3 witness: the lone markdown cell of `"# A\n"` has a non-blank line. -/
theorem c3_amended_witness :
    ∃ l ∈ (Cell.markdown ["# A\n".data, "\n".data, "\n".data]).source,
      (jsTrim l).isEmpty = false :=
  c3_amended "# A\n" (Cell.markdown ["# A\n".data, "\n".data, "\n".data])
    (by decide) rfl

/-- C3 counterexample.  A fenced python block with an empty body yields a
Code cell whose whole content is the single entirely-whitespace line
`"\n"` — the claim that every emitted Code cell has non-blank content is
false. -/
theorem c3_counterexample :
    splitIntoNotebookCells "```python\n```\n" = [Cell.code [['\n']]]
    ∧ ∀ l ∈ (Cell.code [['\n']]).source, (jsTrim l).isEmpty = true := by
  decide

/- Trailing-newline lemmas (for C8). -/

theorem splitCh_concat_sep (sep : Char) (s : List Char) :
    splitCh sep (s ++ [sep]) = splitCh sep s ++ [[]] := by
  induction s with
  | nil => simp [splitCh]
  | cons x xs ih =>
    by_cases hx : x = sep
    · rw [List.cons_append, splitCh, if_pos hx, ih, splitCh, if_pos hx]
      simp
    · rcases hsp : splitCh sep xs with _ | ⟨q, qs⟩
      · exact absurd hsp (splitCh_ne_nil sep xs)
      · rw [List.cons_append, splitCh, if_neg hx, ih, hsp, splitCh, if_neg hx, hsp]
        simp

theorem asLines_getLast (cc : List Char) (h : cc.getLast? = some '\n') :
    (asLines cc).getLast? = some ['\n'] := by
  rcases List.eq_nil_or_concat cc with rfl | ⟨s, a, hsa⟩
  · simp at h
  · rw [List.concat_eq_append] at hsa
    subst hsa
    have ha : a = '\n' := by simpa using h
    subst ha
    rw [asLines, splitCh_concat_sep]
    simp

/-- Invariant: the buffer is empty or ends with a newline, and every code
cell pushed so far has a content array ending with the element `"\n"`. -/
def NlInv (st : ScanState) : Prop :=
  (st.currentCell = [] ∨ st.currentCell.getLast? = some '\n')
  ∧ ∀ cell ∈ st.cells, cell.isCode = true → cell.source.getLast? = some ['\n']

theorem flushMd_nlCells (st : ScanState)
    (hcells : ∀ cell ∈ st.cells, cell.isCode = true →
      cell.source.getLast? = some ['\n']) :
    ∀ cell ∈ (flushMd st).cells, cell.isCode = true →
      cell.source.getLast? = some ['\n'] := by
  by_cases hb : (jsTrim st.currentCell).isEmpty
  · rw [flushMd_blank_eq st hb]; exact hcells
  · rw [flushMd_nonblank_eq st (by simpa using hb)]
    intro cell hcell hcode
    rcases List.mem_append.mp hcell with hm | hm
    · exact hcells cell hm hcode
    · have : cell = Cell.markdown (asLines st.currentCell) := by simpa using hm
      subst this
      simp [Cell.isCode] at hcode

theorem step_nlInv (st : ScanState) (line : List Char)
    (h : NlInv st) : NlInv (step st line) := by
  obtain ⟨hbuf, hcells⟩ := h
  by_cases ht : startsTicks line
  · by_cases hin : st.inCodeBlock
    · rw [step_close_eq st line hin ht]
      refine ⟨Or.inl rfl, ?_⟩
      intro cell hcell hcode
      rcases List.mem_append.mp hcell with hm | hm
      · exact hcells cell hm hcode
      · have hc : cell = closeCell st := by simpa using hm
        subst hc
        unfold closeCell at hcode ⊢
        by_cases hl : st.codeBlockLang = "python".data
        · simp only [hl, if_pos rfl] at hcode ⊢
          rcases hbuf with hb | hb
          · simp [Cell.source, hb, asLines, splitCh]
          · simpa [Cell.source] using asLines_getLast st.currentCell hb
        · simp [hl, Cell.isCode] at hcode
    · rw [step_open_eq st line (by simpa using hin) ht]
      by_cases hb : (jsTrim st.currentCell).isEmpty
      · rw [flushMd_blank_eq st hb]
        exact ⟨hbuf, hcells⟩
      · rw [flushMd_nonblank_eq st (by simpa using hb)]
        refine ⟨Or.inl rfl, ?_⟩
        intro cell hcell hcode
        rcases List.mem_append.mp hcell with hm | hm
        · exact hcells cell hm hcode
        · have : cell = Cell.markdown (asLines st.currentCell) := by simpa using hm
          subst this
          simp [Cell.isCode] at hcode
  · by_cases hh : !st.inCodeBlock && startsHash line
    · have hh' : (!st.inCodeBlock) = true ∧ startsHash line = true := by simpa using hh
      have hout : st.inCodeBlock = false := by simpa using hh'.1
      have hhash : startsHash line = true := hh'.2
      have hstep := step_header_flush_seed st line hout hhash
      refine ⟨Or.inr ?_, ?_⟩
      · rw [hstep.1]
        simp [List.getLast?_concat]
      · rw [hstep.2.1]
        by_cases hb : (jsTrim st.currentCell).isEmpty
        · simpa [hb] using hcells
        · simp only [hb, if_false, Bool.false_eq_true]
          intro cell hcell hcode
          rcases List.mem_append.mp hcell with hm | hm
          · exact hcells cell hm hcode
          · have : cell = Cell.markdown (asLines st.currentCell) := by simpa using hm
            subst this
            simp [Cell.isCode] at hcode
    · rw [step_append_eq st line (by simpa using ht) (by simpa using hh)]
      refine ⟨Or.inr ?_, hcells⟩
      show (st.currentCell ++ line ++ ['\n']).getLast? = some '\n'
      simp [List.getLast?_concat]

theorem scanl_nlInv (lines : List (List Char)) : ∀ st : ScanState,
    NlInv st → ∀ s ∈ List.scanl step st lines, NlInv s := by
  induction lines with
  | nil =>
    intro st h s hs
    rw [List.scanl_nil] at hs
    have : s = st := by simpa using hs
    exact this ▸ h
  | cons l ls ih =>
    intro st h s hs
    rw [List.scanl_cons] at hs
    rcases List.mem_append.mp hs with hm | hm
    · have : s = st := by simpa using hm
      exact this ▸ h
    · exact ih (step st l) (step_nlInv st l h) s hm

theorem nlInv_init : NlInv initState :=
  ⟨Or.inl rfl, by intro cell hcell; simp [initState] at hcell⟩

theorem foldl_nlInv (lines : List (List Char)) : ∀ st : ScanState,
    NlInv st → NlInv (List.foldl step st lines) := by
  induction lines with
  | nil => exact fun st h => h
  | cons l ls ih =>
    intro st h
    rw [List.foldl_cons]
    exact ih _ (step_nlInv st l h)

/-- C8.  At every point of the scan the buffer is empty or ends with a
newline (each append adds `line + '\n'`), so whenever a cell is built from
the buffer, `split('\n')` produces a trailing empty string and the mapped
content array ends with an extra `"\n"` element; in particular every Code
cell of the output (whose content is exactly the split buffer) has a
content array ending with the element `"\n"`. -/
theorem c8_trailing_newline (md : String) :
    (∀ st ∈ scanStates md,
      st.currentCell = [] ∨ st.currentCell.getLast? = some '\n')
    ∧ (∀ cc : List Char, cc.getLast? = some '\n' →
        (asLines cc).getLast? = some ['\n'])
    ∧ (∀ cell ∈ splitIntoNotebookCells md, cell.isCode = true →
        cell.source.getLast? = some ['\n']) := by
  refine ⟨?_, fun cc h => asLines_getLast cc h, ?_⟩
  · intro st hst
    exact (scanl_nlInv _ initState nlInv_init st hst).1
  · have h : NlInv (scanAll md) := foldl_nlInv _ initState nlInv_init
    unfold splitIntoNotebookCells finish flushMd
    by_cases hb : (jsTrim (scanAll md).currentCell).isEmpty
    · simpa [hb] using h.2
    · simp only [hb, if_false, Bool.false_eq_true]
      intro cell hcell hcode
      rcases List.mem_append.mp hcell with hm | hm
      · exact h.2 cell hm hcode
      · have : cell = Cell.markdown (asLines (scanAll md).currentCell) := by simpa using hm
        subst this
        simp [Cell.isCode] at hcode

/- Buffer-shape and content-preservation machinery (for C4 and C7).
The buffer is always a concatenation of newline-terminated raw lines, none
of which contains a newline or is a fence-delimiter line. -/

theorem flatContent_concat (a : List Cell) (c : Cell) :
    flatContent (a ++ [c]) = flatContent a ++ c.source := by
  simp [flatContent]

theorem joinLines_concat (raws : List (List Char)) (l : List Char) :
    joinLines (raws ++ [l]) = joinLines raws ++ l ++ ['\n'] := by
  simp [joinLines]

theorem goodLine_nl : goodLine ['\n'] = false := by decide

theorem startsTicks_ticks_append (x : List Char) :
    startsTicks ("```".data ++ x) = true := by
  show startsTicks ('\x60' :: '\x60' :: '\x60' :: x) = true
  simp [startsTicks]

theorem goodLine_tick_line (l : List Char) (h : startsTicks l = true) :
    goodLine (l ++ ['\n']) = false := by
  simp [goodLine, startsTicks_concat_nl, h]

theorem filter_good_asLines (raws : List (List Char))
    (hwf : ∀ l ∈ raws, ('\n' : Char) ∉ l) :
    (asLines (joinLines raws)).filter goodLine
      = (raws.map (fun l => l ++ ['\n'])).filter goodLine := by
  rw [asLines_joinLines raws hwf, List.filter_append]
  simp [goodLine_nl]

theorem blank_raws_filter (raws : List (List Char))
    (hb : (jsTrim (joinLines raws)).isEmpty = true) :
    (raws.map (fun l => l ++ ['\n'])).filter goodLine = [] := by
  have hall : ∀ c ∈ joinLines raws, wsChar c = true :=
    (jsTrim_eq_nil_iff _).mp (by simpa [List.isEmpty_iff] using hb)
  rw [List.filter_eq_nil_iff]
  intro x hx
  obtain ⟨l, hl, rfl⟩ := List.mem_map.mp hx
  have hblank : jsTrim (l ++ ['\n']) = [] := by
    rw [jsTrim_eq_nil_iff]
    intro c hc
    rcases List.mem_append.mp hc with hm | hm
    · exact hall c (List.mem_flatten_of_mem (List.mem_map_of_mem _ hl)
        (List.mem_append_left _ hm))
    · have : c = '\n' := by simpa using hm
      subst this; decide
  simp [goodLine, hblank]

theorem filter_good_demoted (lang body : List Char) :
    ((("```".data ++ lang ++ ['\n']) :: asLines body ++ ["```\n".data]).filter goodLine)
      = (asLines body).filter goodLine := by
  have ht : startsTicks ("```".data ++ lang ++ ['\n']) = true := by
    rw [List.append_assoc]
    exact startsTicks_ticks_append _
  have h1 : goodLine ("```".data ++ lang ++ ['\n']) = false := by
    unfold goodLine
    rw [ht]
    simp
  have h2 : goodLine "```\n".data = false := by decide
  simp only [List.filter_cons, List.filter_append, List.filter_nil, h1, h2,
    Bool.false_eq_true, if_false, List.append_nil]

/-- The buffer of a state, presented as its raw lines: each raw line is
newline-free and is not a fence-delimiter line. -/
def RawsOf (st : ScanState) (raws : List (List Char)) : Prop :=
  st.currentCell = joinLines raws
  ∧ ∀ l ∈ raws, ('\n' : Char) ∉ l ∧ startsTicks l = false

/-- Invariant tying the state to the lines processed so far: the good
(non-blank, non-fence-delimiter) lines of the emitted cells followed by
those still in the buffer are exactly the good processed lines, in order. -/
def ContentInv (st : ScanState) (processed : List (List Char)) : Prop :=
  ∃ raws, RawsOf st raws
    ∧ (flatContent st.cells).filter goodLine
        ++ (raws.map (fun l => l ++ ['\n'])).filter goodLine
      = (processed.map (fun l => l ++ ['\n'])).filter goodLine

theorem step_contentInv (st : ScanState) (line : List Char)
    (processed : List (List Char)) (hline : ('\n' : Char) ∉ line)
    (h : ContentInv st processed) :
    ContentInv (step st line) (processed ++ [line]) := by
  obtain ⟨raws, ⟨hcc, hwf⟩, heq⟩ := h
  have hwf1 : ∀ l ∈ raws, ('\n' : Char) ∉ l := fun l hl => (hwf l hl).1
  by_cases ht : startsTicks line
  · have hproc : ((processed ++ [line]).map (fun l => l ++ ['\n'])).filter goodLine
        = (processed.map (fun l => l ++ ['\n'])).filter goodLine := by
      rw [List.map_append, List.filter_append]
      simp [goodLine_tick_line line ht]
    by_cases hin : st.inCodeBlock
    · rw [step_close_eq st line hin ht]
      refine ⟨[], ⟨rfl, by simp⟩, ?_⟩
      rw [hproc, ← heq, flatContent_concat, List.filter_append]
      have hclose : ((closeCell st).source).filter goodLine
          = (raws.map (fun l => l ++ ['\n'])).filter goodLine := by
        unfold closeCell
        by_cases hl : st.codeBlockLang = "python".data
        · simp only [hl, if_pos rfl, Cell.source]
          rw [hcc]
          exact filter_good_asLines raws hwf1
        · simp only [if_neg hl, Cell.source]
          rw [filter_good_demoted, hcc]
          exact filter_good_asLines raws hwf1
      rw [hclose]
      simp [joinLines]
    · rw [step_open_eq st line (by simpa using hin) ht]
      by_cases hb : (jsTrim st.currentCell).isEmpty
      · rw [flushMd_blank_eq st hb]
        exact ⟨raws, ⟨hcc, hwf⟩, by rw [hproc]; exact heq⟩
      · rw [flushMd_nonblank_eq st (by simpa using hb)]
        refine ⟨[], ⟨rfl, by simp⟩, ?_⟩
        rw [hproc, ← heq, flatContent_concat, List.filter_append]
        have : ((Cell.markdown (asLines st.currentCell)).source).filter goodLine
            = (raws.map (fun l => l ++ ['\n'])).filter goodLine := by
          simp only [Cell.source]
          rw [hcc]
          exact filter_good_asLines raws hwf1
        rw [this]
        simp [joinLines]
  · by_cases hh : !st.inCodeBlock && startsHash line
    · have hh' : (!st.inCodeBlock) = true ∧ startsHash line = true := by simpa using hh
      have hout : st.inCodeBlock = false := by simpa using hh'.1
      have hstep := step_header_flush_seed st line hout hh'.2
      refine ⟨[line], ⟨?_, ?_⟩, ?_⟩
      · rw [hstep.1]; simp [joinLines]
      · intro l hl
        have : l = line := by simpa using hl
        subst this
        exact ⟨hline, by simpa using ht⟩
      · rw [hstep.2.1]
        simp only [List.map_append, List.map_cons, List.map_nil, List.filter_append]
        by_cases hb : (jsTrim st.currentCell).isEmpty
        · have hblank : (raws.map (fun l => l ++ ['\n'])).filter goodLine = [] :=
            blank_raws_filter raws (by rw [← hcc]; exact hb)
          rw [hblank, List.append_nil] at heq
          simp only [hb, if_pos rfl, flatContent]
          rw [← heq]
          simp [flatContent]
        · simp only [hb, Bool.false_eq_true, if_false, flatContent_concat,
            List.filter_append]
          have hmd : ((Cell.markdown (asLines st.currentCell)).source).filter goodLine
              = (raws.map (fun l => l ++ ['\n'])).filter goodLine := by
            simp only [Cell.source]
            rw [hcc]
            exact filter_good_asLines raws hwf1
          rw [hmd, heq]
    · rw [step_append_eq st line (by simpa using ht) (by simpa using hh)]
      refine ⟨raws ++ [line], ⟨?_, ?_⟩, ?_⟩
      · show st.currentCell ++ line ++ ['\n'] = joinLines (raws ++ [line])
        rw [hcc, joinLines_concat]
      · intro l hl
        rcases List.mem_append.mp hl with hm | hm
        · exact hwf l hm
        · have : l = line := by simpa using hm
          subst this
          exact ⟨hline, by simpa using ht⟩
      · simp only [List.map_append, List.map_cons, List.map_nil, List.filter_append]
        rw [← List.append_assoc, heq]

theorem foldl_contentInv (lines : List (List Char)) : ∀ (st : ScanState)
    (processed : List (List Char)), (∀ l ∈ lines, ('\n' : Char) ∉ l) →
    ContentInv st processed →
    ContentInv (List.foldl step st lines) (processed ++ lines) := by
  induction lines with
  | nil => intro st processed _ h; simpa using h
  | cons l ls ih =>
    intro st processed hl h
    rw [List.foldl_cons]
    have := ih (step st l) (processed ++ [l])
      (fun x hx => hl x (List.mem_cons_of_mem _ hx))
      (step_contentInv st l processed (hl l (List.mem_cons_self _ _)) h)
    simpa [List.append_assoc] using this

theorem scan_contentInv (md : String) :
    ContentInv (scanAll md) (splitCh '\n' md.data) := by
  have h0 : ContentInv initState [] :=
    ⟨[], ⟨rfl, by simp⟩, by simp [flatContent, initState, joinLines]⟩
  have := foldl_contentInv (splitCh '\n' md.data) initState []
    (fun l hl => splitCh_not_mem '\n' md.data l hl) h0
  simpa [scanAll] using this

/-- C7 counterexample.  On `"\n\n# A\n"` (no fence-delimiter lines at all)
the concatenated output does not reconstruct the source line sequence, and
the output contains fewer blank lines than the source: a blank
non-fence-delimiter source line appears in no output cell (the blank
pending buffer is discarded when the header line arrives). -/
theorem c7_counterexample :
    (∀ l ∈ splitCh '\n' ("\n\n# A\n").data, startsTicks l = false)
    ∧ flatContent (splitIntoNotebookCells "\n\n# A\n") ≠ srcLines "\n\n# A\n"
    ∧ (flatContent (splitIntoNotebookCells "\n\n# A\n")).count "\n".data
        < (srcLines "\n\n# A\n").count "\n".data := by
  decide

/-- C7 (amended).  Order preservation and exhaustive coverage hold for the
non-blank lines: filtering out blank (whitespace-only) lines and
fence-delimiter lines, the concatenated content of the output cells equals
the source line sequence — every non-blank non-fence-delimiter source line
appears in exactly one output cell, in source order.  (Blank lines can be
dropped — a blank pending buffer is discarded at a header line or at end of
input — and each flush appends an extra blank `"\n"` split artifact, so
the unfiltered statement is false.) -/
theorem c7_amended (md : String) :
    (flatContent (splitIntoNotebookCells md)).filter goodLine
      = (srcLines md).filter goodLine := by
  obtain ⟨raws, ⟨hcc, hwf⟩, heq⟩ := scan_contentInv md
  have hwf1 : ∀ l ∈ raws, ('\n' : Char) ∉ l := fun l hl => (hwf l hl).1
  unfold splitIntoNotebookCells finish
  have hsrc : srcLines md = (splitCh '\n' md.data).map (fun l => l ++ ['\n']) := rfl
  by_cases hb : (jsTrim (scanAll md).currentCell).isEmpty
  · rw [flushMd_blank_eq _ hb]
    have hblank : (raws.map (fun l => l ++ ['\n'])).filter goodLine = [] :=
      blank_raws_filter raws (by rw [← hcc]; exact hb)
    rw [hblank, List.append_nil] at heq
    rw [hsrc, ← heq]
  · rw [flushMd_nonblank_eq _ (by simpa using hb), flatContent_concat,
        List.filter_append]
    have : ((Cell.markdown (asLines (scanAll md).currentCell)).source).filter goodLine
        = (raws.map (fun l => l ++ ['\n'])).filter goodLine := by
      simp only [Cell.source]
      rw [hcc]
      exact filter_good_asLines raws hwf1
    rw [this, hsrc, ← heq]

/-- C4 counterexample.  The claim says the end-of-input flush of an
unterminated fence reconstructs the opening fence marker line
(```` ``` ```` plus the recorded tag).  It does not: on
`"```python\nx = 1\n"` the flushed Prose cell contains only the split
buffer — no cell of the output contains any fence-marker line. -/
theorem c4_counterexample :
    splitIntoNotebookCells "```python\nx = 1\n" =
      [Cell.markdown ["x = 1\n".data, "\n".data, "\n".data]]
    ∧ ∀ cell ∈ splitIntoNotebookCells "```python\nx = 1\n",
        ∀ l ∈ cell.source, startsTicks l = false := by
  decide

/-- C4 (amended).  When the document ends while a fence is still open, the
function does not fail: the accumulated fence body is flushed as a final
Prose (markdown) cell — only when non-blank — containing exactly the split
buffer, with no fence-marker line at all (neither the opening marker nor a
synthesized closing marker appears in it). -/
theorem c4_amended (md : String) (_h : (scanAll md).inCodeBlock = true) :
    splitIntoNotebookCells md
      = (scanAll md).cells ++
        (if (jsTrim (scanAll md).currentCell).isEmpty then []
         else [Cell.markdown (asLines (scanAll md).currentCell)])
    ∧ ∀ l ∈ asLines (scanAll md).currentCell, startsTicks l = false := by
  constructor
  · unfold splitIntoNotebookCells finish
    by_cases hb : (jsTrim (scanAll md).currentCell).isEmpty
    · rw [flushMd_blank_eq _ hb]
      simp [hb]
    · rw [flushMd_nonblank_eq _ (by simpa using hb)]
      simp [hb]
  · obtain ⟨raws, ⟨hcc, hwf⟩, _⟩ := scan_contentInv md
    rw [hcc, asLines_joinLines raws (fun l hl => (hwf l hl).1)]
    intro l hl
    rcases List.mem_append.mp hl with hm | hm
    · obtain ⟨raw, hraw, rfl⟩ := List.mem_map.mp hm
      rw [startsTicks_concat_nl]
      exact (hwf raw hraw).2
    · have : l = ['\n'] := by simpa using hm
      subst this
      decide

/-- C4 witness: the amended statement at the unterminated-fence document
`"```python\nx = 1\n"`. -/
theorem c4_amended_witness :
    (splitIntoNotebookCells "```python\nx = 1\n"
      = (scanAll "```python\nx = 1\n").cells ++
        (if (jsTrim (scanAll "```python\nx = 1\n").currentCell).isEmpty then []
         else [Cell.markdown (asLines (scanAll "```python\nx = 1\n").currentCell)]))
    ∧ ∀ l ∈ asLines (scanAll "```python\nx = 1\n").currentCell,
        startsTicks l = false :=
  c4_amended "```python\nx = 1\n" (by decide)

/-- C8 witness: the code cell of `"```python\nx\n```\n"` ends with the
extra `"\n"` element. -/
theorem c8_trailing_newline_witness :
    (Cell.code ["x\n".data, "\n".data]).source.getLast? = some ['\n'] :=
  (c8_trailing_newline "```python\nx\n```\n").2.2
    (Cell.code ["x\n".data, "\n".data]) (by decide) rfl

/-- Sanity check corresponding to the spec's Example 4: the empty document
produces no cells. -/
theorem splitIntoNotebookCells_empty : splitIntoNotebookCells "" = [] := by
  decide
